import Mathlib

/-!
Verification of the due-date calculator (`due_date_calculator/calculator.py`).

The embedding models a Python naive `datetime` at second granularity as an
integer count of seconds on a linear timeline whose day 0 is a Monday, so
`weekday`, `hour`, `minute` and `second` become floored div/mod arithmetic
(Python's `//` and `%` agree with Euclidean div/mod for positive divisors).
Python float arithmetic on hours is modelled exactly over `ℚ`; every hour
quantity the algorithm manipulates has denominator dividing 3600, so
`timedelta(hours=h)` is adding `h * 3600` seconds (the floor in `addHours`
is exact on all reachable values).  `raise ValueError(msg)` becomes
`Except.error msg`.
-/

namespace DueDate

/-- `DueDateCalculator.WORK_START_HOUR` -/
def WORK_START_HOUR : ℤ := 9

/-- `DueDateCalculator.WORK_END_HOUR` -/
def WORK_END_HOUR : ℤ := 17

/-- `DueDateCalculator.WORK_HOURS_PER_DAY = WORK_END_HOUR - WORK_START_HOUR` -/
def WORK_HOURS_PER_DAY : ℤ := WORK_END_HOUR - WORK_START_HOUR

/-- Calendar day index of an instant (`datetime.date()` as a day count). -/
def dayIndex (t : ℤ) : ℤ := t / 86400

/-- Seconds elapsed since the instant's midnight. -/
def secOfDay (t : ℤ) : ℤ := t % 86400

/-- `datetime.weekday()`: Monday = 0 .. Sunday = 6 (day 0 is a Monday). -/
def weekday (t : ℤ) : ℤ := dayIndex t % 7

/-- `datetime.hour` -/
def hour (t : ℤ) : ℤ := secOfDay t / 3600

/-- `datetime.minute` -/
def minute (t : ℤ) : ℤ := secOfDay t % 3600 / 60

/-- `datetime.second` -/
def second (t : ℤ) : ℤ := secOfDay t % 60

/-- Midnight of the instant's day: `datetime(t.year, t.month, t.day, 0, 0, 0)`. -/
def dayStart (t : ℤ) : ℤ := dayIndex t * 86400

/-- `datetime(t.year, t.month, t.day, WORK_START_HOUR, 0, 0)` -/
def atWorkStart (t : ℤ) : ℤ := dayStart t + WORK_START_HOUR * 3600

/-- `t + timedelta(days=d)` -/
def addDays (t : ℤ) (d : ℤ) : ℤ := t + d * 86400

/-- `t + timedelta(hours=h)`: adds `h * 3600` seconds; on every value the
algorithm reaches, `h * 3600` is an integer, so the floor is exact. -/
def addHours (t : ℤ) (h : ℚ) : ℤ := t + ⌊h * 3600⌋

/-- `DueDateCalculator._is_during_working_hours` (lines 87-105):
`weekday in range(0, 5)` and
(`WORK_START_HOUR <= hour < WORK_END_HOUR` or
 (`hour == WORK_END_HOUR and minute == 0`)). -/
def is_during_working_hours (t : ℤ) : Bool :=
  decide (weekday t < 5) &&
    ((decide (WORK_START_HOUR ≤ hour t) && decide (hour t < WORK_END_HOUR)) ||
      (decide (hour t = WORK_END_HOUR) && decide (minute t = 0)))

/-- `DueDateCalculator._get_remaining_work_hours_in_day` (lines 107-123):
`WORK_END_HOUR - hour - minute/60 - second/3600`, float division modelled
exactly over `ℚ`. -/
def get_remaining_work_hours_in_day (t : ℤ) : ℚ :=
  (WORK_END_HOUR : ℚ) - (hour t : ℚ) - (minute t : ℚ) / 60 - (second t : ℚ) / 3600

/-- The `while next_day.weekday() not in WORKING_DAYS` loop of
`_get_next_working_day` (lines 145-146): keep adding one day while the
weekday is not Monday-Friday. -/
def skipToWorkday (u : ℤ) : ℤ :=
  if h : weekday u < 5 then u else skipToWorkday (addDays u 1)
termination_by ((7 - weekday u) % 7).toNat
decreasing_by
  simp only [weekday, dayIndex, addDays] at *
  omega

/-- `DueDateCalculator._get_next_working_day` (lines 125-148): add one
calendar day, reset the time to `WORK_START_HOUR:00:00`, then skip any
weekend days. -/
def get_next_working_day (t : ℤ) : ℤ :=
  skipToWorkday (atWorkStart (addDays t 1))

/-- The `while remaining_hours >= WORK_HOURS_PER_DAY` loop of
`calculate_due_date` (lines 68-70): consume one full working day per
iteration, advancing to the next working day each time. -/
def fullDaysLoop (r : ℚ) (c : ℤ) : ℚ × ℤ :=
  if h : (WORK_HOURS_PER_DAY : ℚ) ≤ r then
    fullDaysLoop (r - (WORK_HOURS_PER_DAY : ℚ)) (get_next_working_day c)
  else (r, c)
termination_by ⌈r⌉.toNat
decreasing_by
  have hc : WORK_HOURS_PER_DAY = 8 := by decide
  rw [hc] at *
  have h8 : ((8 : ℤ) : ℚ) ≤ r := by exact_mod_cast h
  have hle : ((8 : ℤ) : ℚ) ≤ (⌈r⌉ : ℚ) := le_trans h8 (Int.le_ceil r)
  have hle' : (8 : ℤ) ≤ ⌈r⌉ := by exact_mod_cast hle
  have hsub : ⌈r - ((8 : ℤ) : ℚ)⌉ = ⌈r⌉ - 8 := Int.ceil_sub_int r 8
  omega

/-- `DueDateCalculator.calculate_due_date` (lines 20-85).  `raise ValueError`
becomes `Except.error` carrying the exact message string. -/
def calculate_due_date (submit_date : ℤ) (turnaround_hours : ℤ) :
    Except String ℤ :=
  if ! is_during_working_hours submit_date then
    .error "Submit date must be during working hours (9AM to 5PM, Monday to Friday)"
  else if turnaround_hours < 0 then
    .error "Turnaround time cannot be negative"
  else if turnaround_hours = 0 then
    .ok submit_date
  else
    let hours_left_today := get_remaining_work_hours_in_day submit_date
    if (turnaround_hours : ℚ) ≤ hours_left_today then
      .ok (addHours submit_date (turnaround_hours : ℚ))
    else
      let remaining : ℚ := (turnaround_hours : ℚ) - hours_left_today
      let start := get_next_working_day submit_date
      let res := fullDaysLoop remaining start
      if res.1 > 0 then
        .ok (addHours (atWorkStart res.2) res.1)
      else
        .ok res.2

/-! ### Helper lemmas -/

theorem working_hours_iff (t : ℤ) :
    is_during_working_hours t = true ↔
      weekday t < 5 ∧ ((9 ≤ hour t ∧ hour t < 17) ∨ (hour t = 17 ∧ minute t = 0)) := by
  simp [is_during_working_hours, WORK_START_HOUR, WORK_END_HOUR, and_assoc]

theorem valid_bounds {t : ℤ} (hv : is_during_working_hours t = true) :
    weekday t < 5 ∧ 32400 ≤ secOfDay t ∧ secOfDay t < 61260 := by
  rw [working_hours_iff] at hv
  simp only [hour, minute, secOfDay] at hv ⊢
  omega

theorem skipToWorkday_pos {u : ℤ} (h : weekday u < 5) :
    skipToWorkday u = u := by
  rw [skipToWorkday]
  simp [h]

theorem skipToWorkday_neg {u : ℤ} (h : ¬ weekday u < 5) :
    skipToWorkday u = skipToWorkday (addDays u 1) := by
  conv_lhs => rw [skipToWorkday]
  simp [h]

/-- Closed form for `_get_next_working_day`: one, two or three days are
added according to the weekday of the following day. -/
theorem nwd_eval (t : ℤ) :
    get_next_working_day t =
      if (dayIndex t + 1) % 7 = 5 then (dayIndex t + 3) * 86400 + 32400
      else if (dayIndex t + 1) % 7 = 6 then (dayIndex t + 2) * 86400 + 32400
      else (dayIndex t + 1) * 86400 + 32400 := by
  have hu : atWorkStart (addDays t 1) = (dayIndex t + 1) * 86400 + 32400 := by
    simp only [atWorkStart, dayStart, dayIndex, addDays, WORK_START_HOUR]
    omega
  have hwd : ∀ D : ℤ, weekday (D * 86400 + 32400) = D % 7 := by
    intro D
    simp only [weekday, dayIndex]
    omega
  rw [get_next_working_day, hu]
  rcases show (dayIndex t + 1) % 7 = 5 ∨ (dayIndex t + 1) % 7 = 6 ∨
      (dayIndex t + 1) % 7 < 5 by omega with h5 | h6 | hlt
  · have s1 : ¬ weekday ((dayIndex t + 1) * 86400 + 32400) < 5 := by
      rw [hwd]; omega
    have e1 : addDays ((dayIndex t + 1) * 86400 + 32400) 1 =
        (dayIndex t + 2) * 86400 + 32400 := by
      simp only [addDays]; ring
    have s2 : ¬ weekday ((dayIndex t + 2) * 86400 + 32400) < 5 := by
      rw [hwd]; omega
    have e2 : addDays ((dayIndex t + 2) * 86400 + 32400) 1 =
        (dayIndex t + 3) * 86400 + 32400 := by
      simp only [addDays]; ring
    have s3 : weekday ((dayIndex t + 3) * 86400 + 32400) < 5 := by
      rw [hwd]; omega
    rw [skipToWorkday_neg s1, e1, skipToWorkday_neg s2, e2, skipToWorkday_pos s3]
    simp [h5]
  · have s1 : ¬ weekday ((dayIndex t + 1) * 86400 + 32400) < 5 := by
      rw [hwd]; omega
    have e1 : addDays ((dayIndex t + 1) * 86400 + 32400) 1 =
        (dayIndex t + 2) * 86400 + 32400 := by
      simp only [addDays]; ring
    have s2 : weekday ((dayIndex t + 2) * 86400 + 32400) < 5 := by
      rw [hwd]; omega
    rw [skipToWorkday_neg s1, e1, skipToWorkday_pos s2]
    have : (dayIndex t + 1) % 7 ≠ 5 := by omega
    simp [this, h6]
  · have s1 : weekday ((dayIndex t + 1) * 86400 + 32400) < 5 := by
      rw [hwd]; omega
    rw [skipToWorkday_pos s1]
    have h5 : (dayIndex t + 1) % 7 ≠ 5 := by omega
    have h6 : (dayIndex t + 1) % 7 ≠ 6 := by omega
    simp [h5, h6]

/-- `_get_next_working_day` always lands on a working weekday at exactly
09:00:00, on a strictly later calendar day, at most three days ahead. -/
theorem nwd_shape (t : ℤ) :
    ∃ j : ℤ, 1 ≤ j ∧ j ≤ 3 ∧
      get_next_working_day t = (dayIndex t + j) * 86400 + 32400 ∧
      (dayIndex t + j) % 7 < 5 := by
  rw [nwd_eval]
  rcases show (dayIndex t + 1) % 7 = 5 ∨ (dayIndex t + 1) % 7 = 6 ∨
      (dayIndex t + 1) % 7 < 5 by omega with h | h | h
  · exact ⟨3, by omega, by omega, by simp [h], by omega⟩
  · have h5 : (dayIndex t + 1) % 7 ≠ 5 := by omega
    exact ⟨2, by omega, by omega, by simp [h5, h], by omega⟩
  · have h5 : (dayIndex t + 1) % 7 ≠ 5 := by omega
    have h6 : (dayIndex t + 1) % 7 ≠ 6 := by omega
    exact ⟨1, by omega, by omega, by simp [h5, h6], by omega⟩

theorem nwd_sec (t : ℤ) : secOfDay (get_next_working_day t) = 32400 := by
  obtain ⟨j, _, _, he, _⟩ := nwd_shape t
  rw [he]
  simp only [secOfDay]
  omega

theorem nwd_wd (t : ℤ) : weekday (get_next_working_day t) < 5 := by
  obtain ⟨j, _, _, he, hw⟩ := nwd_shape t
  rw [he]
  simp only [weekday, dayIndex] at hw ⊢
  omega

theorem dayStart_add_sec (t : ℤ) : dayIndex t * 86400 + secOfDay t = t := by
  simp only [dayIndex, secOfDay]
  omega

theorem secOfDay_bounds (t : ℤ) : 0 ≤ secOfDay t ∧ secOfDay t < 86400 := by
  simp only [secOfDay]
  omega

theorem nwd_lb (t : ℤ) :
    dayIndex t * 86400 + 118800 ≤ get_next_working_day t := by
  obtain ⟨j, hj1, _, he, _⟩ := nwd_shape t
  rw [he]
  nlinarith

theorem nwd_gt (t : ℤ) : t < get_next_working_day t := by
  have h1 := nwd_lb t
  have h2 := dayStart_add_sec t
  have h3 := secOfDay_bounds t
  omega

theorem nwd_ge_add_day {x : ℤ} (hx : secOfDay x = 32400) :
    x + 86400 ≤ get_next_working_day x := by
  have h1 := nwd_lb x
  have h2 := dayStart_add_sec x
  omega

theorem atWorkStart_self {x : ℤ} (hx : secOfDay x = 32400) : atWorkStart x = x := by
  have h2 := dayStart_add_sec x
  simp only [atWorkStart, dayStart, WORK_START_HOUR]
  simp only [dayIndex, secOfDay] at *
  omega

theorem nwd_iter_sec (k : ℕ) (t : ℤ) :
    secOfDay (get_next_working_day^[k + 1] t) = 32400 := by
  rw [Function.iterate_succ_apply']
  exact nwd_sec _

theorem nwd_iter_wd (k : ℕ) (t : ℤ) :
    weekday (get_next_working_day^[k + 1] t) < 5 := by
  rw [Function.iterate_succ_apply']
  exact nwd_wd _

theorem nwd_iter_gt (k : ℕ) (t : ℤ) : t < get_next_working_day^[k + 1] t := by
  induction k with
  | zero => simpa using nwd_gt t
  | succ n ih =>
      rw [Function.iterate_succ_apply']
      exact lt_trans ih (nwd_gt _)

theorem nwd_iter_le_add (t : ℤ) (k d : ℕ) :
    get_next_working_day^[k] t ≤ get_next_working_day^[k + d] t := by
  induction d with
  | zero => simp
  | succ n ih =>
      have he : k + (n + 1) = (k + n) + 1 := rfl
      rw [he, Function.iterate_succ_apply']
      exact le_trans ih (le_of_lt (nwd_gt _))

theorem nwd_iter_mono (t : ℤ) {k m : ℕ} (h : k ≤ m) :
    get_next_working_day^[k] t ≤ get_next_working_day^[m] t := by
  obtain ⟨d, rfl⟩ := Nat.exists_eq_add_of_le h
  exact nwd_iter_le_add t k d

theorem fullDaysLoop_step (r : ℚ) (c : ℤ) (h : (8 : ℚ) ≤ r) :
    fullDaysLoop r c = fullDaysLoop (r - 8) (get_next_working_day c) := by
  have hc : ((WORK_HOURS_PER_DAY : ℤ) : ℚ) = 8 := by
    norm_num [WORK_HOURS_PER_DAY, WORK_END_HOUR, WORK_START_HOUR]
  rw [fullDaysLoop, dif_pos (by rw [hc]; exact h), hc]

theorem fullDaysLoop_stop (r : ℚ) (c : ℤ) (h : r < 8) :
    fullDaysLoop r c = (r, c) := by
  have hc : ((WORK_HOURS_PER_DAY : ℤ) : ℚ) = 8 := by
    norm_num [WORK_HOURS_PER_DAY, WORK_END_HOUR, WORK_START_HOUR]
  rw [fullDaysLoop, dif_neg (by rw [hc]; exact not_le.mpr h)]

theorem fullDaysLoop_spec_aux (m : ℕ) : ∀ (r : ℚ) (c : ℤ), ⌈r⌉.toNat ≤ m →
    ∃ k : ℕ, fullDaysLoop r c = (r - 8 * (k : ℚ), get_next_working_day^[k] c) ∧
      r - 8 * (k : ℚ) < 8 ∧ ∀ j : ℕ, j < k → 8 ≤ r - 8 * (j : ℚ) := by
  induction m with
  | zero =>
      intro r c hm
      have hr : r < 8 := by
        have h1 : r ≤ (⌈r⌉ : ℚ) := Int.le_ceil r
        have h2 : ⌈r⌉ ≤ 0 := by omega
        have h3 : ((⌈r⌉ : ℤ) : ℚ) ≤ ((0 : ℤ) : ℚ) := by exact_mod_cast h2
        push_cast at h3
        linarith
      exact ⟨0, by simpa using fullDaysLoop_stop r c hr, by simpa using hr,
        fun j hj => absurd hj (Nat.not_lt_zero j)⟩
  | succ m ih =>
      intro r c hm
      by_cases h : (8 : ℚ) ≤ r
      · have hceil : ⌈r - (8 : ℚ)⌉ = ⌈r⌉ - 8 := by
          have := Int.ceil_sub_int r (8 : ℤ)
          push_cast at this
          exact this
        have h8 : (8 : ℤ) ≤ ⌈r⌉ := by
          have h1 : ((8 : ℤ) : ℚ) ≤ (⌈r⌉ : ℚ) := le_trans (by push_cast; exact h) (Int.le_ceil r)
          exact_mod_cast h1
        obtain ⟨k, hk1, hk2, hk3⟩ := ih (r - 8) (get_next_working_day c) (by omega)
        refine ⟨k + 1, ?_, ?_, ?_⟩
        · rw [fullDaysLoop_step r c h, hk1, Function.iterate_succ_apply]
          congr 1
          push_cast
          ring
        · have : r - 8 * ((k : ℚ) + 1) = (r - 8) - 8 * (k : ℚ) := by ring
          push_cast
          rw [this]
          exact hk2
        · intro j hj
          cases j with
          | zero => simpa using h
          | succ i =>
              have hi := hk3 i (by omega)
              push_cast
              push_cast at hi
              linarith
      · exact ⟨0, by simpa using fullDaysLoop_stop r c (not_le.mp h),
          by simpa using not_le.mp h, fun j hj => absurd hj (Nat.not_lt_zero j)⟩

theorem fullDaysLoop_spec (r : ℚ) (c : ℤ) :
    ∃ k : ℕ, fullDaysLoop r c = (r - 8 * (k : ℚ), get_next_working_day^[k] c) ∧
      r - 8 * (k : ℚ) < 8 ∧ ∀ j : ℕ, j < k → 8 ≤ r - 8 * (j : ℚ) :=
  fullDaysLoop_spec_aux ⌈r⌉.toNat r c le_rfl

theorem sec_decomp (t : ℤ) :
    3600 * hour t + 60 * minute t + second t = secOfDay t := by
  simp only [hour, minute, second, secOfDay]
  omega

theorem remaining_eq (t : ℤ) :
    get_remaining_work_hours_in_day t = ((61200 - secOfDay t : ℤ) : ℚ) / 3600 := by
  have h := sec_decomp t
  have h2 : ((secOfDay t : ℤ) : ℚ) =
      3600 * (hour t : ℚ) + 60 * (minute t : ℚ) + (second t : ℚ) := by
    exact_mod_cast congrArg (fun z : ℤ => (z : ℚ)) h.symm
  rw [get_remaining_work_hours_in_day]
  have h17 : (WORK_END_HOUR : ℚ) = 17 := by norm_num [WORK_END_HOUR]
  rw [h17]
  push_cast
  rw [h2]
  ring

theorem le_remaining_iff (n t : ℤ) :
    ((n : ℚ) ≤ get_remaining_work_hours_in_day t) ↔ 3600 * n ≤ 61200 - secOfDay t := by
  rw [remaining_eq, le_div_iff (by norm_num : (0 : ℚ) < 3600)]
  rw [show ((n : ℚ) * 3600) = ((3600 * n : ℤ) : ℚ) by push_cast; ring]
  exact Int.cast_le

theorem addHours_eq {r : ℚ} {z : ℤ} (hz : r * 3600 = (z : ℚ)) (t : ℤ) :
    addHours t r = t + z := by
  rw [addHours, hz, Int.floor_intCast]

theorem addHours_int (t n : ℤ) : addHours t (n : ℚ) = t + 3600 * n := by
  rw [addHours_eq (z := 3600 * n) (by push_cast; ring)]

/-! ### Unfolding `calculate_due_date` branch by branch -/

theorem calc_invalid {t : ℤ} (n : ℤ) (hv : is_during_working_hours t = false) :
    calculate_due_date t n =
      .error "Submit date must be during working hours (9AM to 5PM, Monday to Friday)" := by
  simp [calculate_due_date, hv]

theorem calc_neg {t n : ℤ} (hv : is_during_working_hours t = true) (hn : n < 0) :
    calculate_due_date t n = .error "Turnaround time cannot be negative" := by
  simp [calculate_due_date, hv, hn]

theorem calc_zero {t : ℤ} (hv : is_during_working_hours t = true) :
    calculate_due_date t 0 = .ok t := by
  norm_num [calculate_due_date, hv]

theorem calc_branch1 {t n : ℤ} (hv : is_during_working_hours t = true)
    (h1 : 1 ≤ n) (hle : 3600 * n ≤ 61200 - secOfDay t) :
    calculate_due_date t n = .ok (t + 3600 * n) := by
  have hq : (n : ℚ) ≤ get_remaining_work_hours_in_day t := (le_remaining_iff n t).mpr hle
  have hn0 : ¬ n < 0 := by omega
  have hne : ¬ n = 0 := by omega
  simp only [calculate_due_date, hv, Bool.not_true, Bool.false_eq_true, if_false,
    if_neg hn0, if_neg hne, if_pos hq, addHours_int]

theorem calc_branch2 {t n : ℤ} (hv : is_during_working_hours t = true)
    (h1 : 1 ≤ n) (hgt : 61200 - secOfDay t < 3600 * n) :
    calculate_due_date t n = .ok
      (get_next_working_day^[(3600 * n - 61200 + secOfDay t).toNat / 28800 + 1] t
        + (3600 * n - 61200 + secOfDay t) % 28800) := by
  have hq : ¬ (n : ℚ) ≤ get_remaining_work_hours_in_day t := by
    rw [le_remaining_iff]
    omega
  have hn0 : ¬ n < 0 := by omega
  have hne : ¬ n = 0 := by omega
  have hr0 : (n : ℚ) - get_remaining_work_hours_in_day t =
      ((3600 * n - 61200 + secOfDay t : ℤ) : ℚ) / 3600 := by
    rw [remaining_eq]
    push_cast
    ring
  obtain ⟨k, hk1, hk2, hk3⟩ :=
    fullDaysLoop_spec ((n : ℚ) - get_remaining_work_hours_in_day t)
      (get_next_working_day t)
  -- rewrite the loop result through the integer seconds budget
  have hBpos : 0 < 3600 * n - 61200 + secOfDay t := by omega
  have hfst : ((n : ℚ) - get_remaining_work_hours_in_day t) - 8 * (k : ℚ) =
      ((3600 * n - 61200 + secOfDay t - 28800 * k : ℤ) : ℚ) / 3600 := by
    rw [hr0]
    push_cast
    ring
  have hub : 3600 * n - 61200 + secOfDay t - 28800 * k < 28800 := by
    rw [hfst] at hk2
    have := (div_lt_iff (by norm_num : (0 : ℚ) < 3600)).mp hk2
    exact_mod_cast this
  have hlb : 0 ≤ 3600 * n - 61200 + secOfDay t - 28800 * k := by
    rcases Nat.eq_zero_or_pos k with hk0 | hkpos
    · subst hk0
      push_cast
      omega
    · have hj := hk3 (k - 1) (by omega)
      have hcast : ((k - 1 : ℕ) : ℚ) = (k : ℚ) - 1 := by
        push_cast [Nat.cast_sub hkpos]
        ring
      rw [hcast, hr0] at hj
      have : (8 : ℚ) * ((k : ℚ) - 1) + 8 ≤ ((3600 * n - 61200 + secOfDay t : ℤ) : ℚ) / 3600 := by
        linarith
      have h2 := (le_div_iff (by norm_num : (0 : ℚ) < 3600)).mp this
      have h3 : ((28800 * k : ℤ) : ℚ) ≤ ((3600 * n - 61200 + secOfDay t : ℤ) : ℚ) := by
        push_cast
        push_cast at h2
        linarith
      have h4 : (28800 * k : ℤ) ≤ 3600 * n - 61200 + secOfDay t := by exact_mod_cast h3
      omega
  have hkval : k = (3600 * n - 61200 + secOfDay t).toNat / 28800 := by
    omega
  -- the instant reached by the loop is the (k+1)-st next working day
  have hc' : get_next_working_day^[k] (get_next_working_day t) =
      get_next_working_day^[k + 1] t := (Function.iterate_succ_apply _ _ _).symm
  have hsec : secOfDay (get_next_working_day^[k + 1] t) = 32400 := nwd_iter_sec k t
  simp only [calculate_due_date, hv, Bool.not_true, Bool.false_eq_true, if_false,
    if_neg hn0, if_neg hne, if_neg hq]
  rw [hk1, hc']
  dsimp only
  by_cases hpos : (0 : ℤ) < 3600 * n - 61200 + secOfDay t - 28800 * k
  · have hcast : (0 : ℚ) < ((3600 * n - 61200 + secOfDay t - 28800 * k : ℤ) : ℚ) := by
      exact_mod_cast hpos
    have hgt0 : ((n : ℚ) - get_remaining_work_hours_in_day t) - 8 * (k : ℚ) > 0 := by
      rw [hfst]
      exact div_pos hcast (by norm_num)
    rw [if_pos hgt0, atWorkStart_self hsec,
      addHours_eq (z := 3600 * n - 61200 + secOfDay t - 28800 * k)
        (by rw [hfst]; field_simp) _]
    have hmod : (3600 * n - 61200 + secOfDay t) % 28800 =
        3600 * n - 61200 + secOfDay t - 28800 * k := by
      omega
    rw [hmod, ← hkval]
  · have heq0 : ((n : ℚ) - get_remaining_work_hours_in_day t) - 8 * (k : ℚ) = 0 := by
      rw [hfst]
      have : (3600 * n - 61200 + secOfDay t - 28800 * k : ℤ) = 0 := by omega
      rw [this]
      norm_num
    rw [if_neg (by rw [heq0]; exact lt_irrefl 0)]
    have hmod : (3600 * n - 61200 + secOfDay t) % 28800 = 0 := by
      omega
    rw [hmod, add_zero, ← hkval]

/-- Full case analysis of `calculate_due_date` on valid input: identity,
same-day completion, or the closed form of the multi-day branch. -/
theorem calc_result {t n : ℤ} (hv : is_during_working_hours t = true) (hn : 0 ≤ n) :
    ∃ r, calculate_due_date t n = .ok r ∧
      ((n = 0 ∧ r = t) ∨
       (1 ≤ n ∧ 3600 * n ≤ 61200 - secOfDay t ∧ r = t + 3600 * n) ∨
       (1 ≤ n ∧ 61200 - secOfDay t < 3600 * n ∧
         r = get_next_working_day^[(3600 * n - 61200 + secOfDay t).toNat / 28800 + 1] t
             + (3600 * n - 61200 + secOfDay t) % 28800)) := by
  rcases show n = 0 ∨ 1 ≤ n by omega with h0 | h1
  · subst h0
    exact ⟨t, calc_zero hv, Or.inl ⟨rfl, rfl⟩⟩
  · rcases le_or_lt (3600 * n) (61200 - secOfDay t) with hle | hgt
    · exact ⟨t + 3600 * n, calc_branch1 hv h1 hle, Or.inr (Or.inl ⟨h1, hle, rfl⟩)⟩
    · exact ⟨_, calc_branch2 hv h1 hgt, Or.inr (Or.inr ⟨h1, hgt, rfl⟩)⟩

/-- The multi-day closed form is monotone in the seconds budget `B`. -/
theorem branch2_mono (t : ℤ) {B B' : ℤ} (hB : 0 < B) (hBB : B ≤ B') :
    get_next_working_day^[B.toNat / 28800 + 1] t + B % 28800 ≤
      get_next_working_day^[B'.toNat / 28800 + 1] t + B' % 28800 := by
  by_cases hK : B.toNat / 28800 = B'.toNat / 28800
  · rw [hK]
    have hmod : B % 28800 ≤ B' % 28800 := by omega
    omega
  · have hKlt : B.toNat / 28800 < B'.toNat / 28800 := by omega
    have hsec := nwd_iter_sec (B.toNat / 28800) t
    have hstep : get_next_working_day^[B.toNat / 28800 + 1] t + 86400 ≤
        get_next_working_day^[(B.toNat / 28800 + 1) + 1] t := by
      rw [Function.iterate_succ_apply' get_next_working_day (B.toNat / 28800 + 1) t]
      exact nwd_ge_add_day hsec
    have hmono : get_next_working_day^[(B.toNat / 28800 + 1) + 1] t ≤
        get_next_working_day^[B'.toNat / 28800 + 1] t :=
      nwd_iter_mono t (by omega)
    have h1 : B % 28800 < 28800 := Int.emod_lt_of_pos _ (by norm_num)
    have h2 : 0 ≤ B' % 28800 := Int.emod_nonneg _ (by norm_num)
    omega

/-! ### Claim theorems -/

/-- C1 counterexample: the claim declares 17:00:01 on a weekday invalid, but
`_is_during_working_hours` examines only the hour and minute at the closing
boundary, so Monday 17:00:01 (instant 61201) satisfies the predicate. -/
theorem c1_boundary_counterexample :
    is_during_working_hours 61201 = true ∧ weekday 61201 < 5 ∧
      hour 61201 = 17 ∧ minute 61201 = 0 ∧ second 61201 = 1 := by
  decide

/-- C1 (amended): `_is_during_working_hours` returns true iff the weekday is
Monday-Friday and either 9 ≤ hour < 17 or hour = 17 with minute = 0 (the
second is ignored at the boundary).  Exactly 17:00:00 on a weekday is valid
input, 17:00:01 is valid as well, while 17:01:00 and 08:59:59 are invalid,
and weekends are always invalid. -/
theorem c1_working_hours_predicate :
    (∀ t : ℤ, is_during_working_hours t = true ↔
      weekday t < 5 ∧ ((9 ≤ hour t ∧ hour t < 17) ∨ (hour t = 17 ∧ minute t = 0))) ∧
    is_during_working_hours 61200 = true ∧
    is_during_working_hours 61260 = false ∧
    is_during_working_hours 32399 = false ∧
    (∀ t : ℤ, ¬ weekday t < 5 → is_during_working_hours t = false) := by
  refine ⟨working_hours_iff, by decide, by decide, by decide, fun t h => ?_⟩
  cases hb : is_during_working_hours t
  · rfl
  · exact absurd ((working_hours_iff t).mp hb).1 h

/-- C1 witness: Saturday 10:00 (instant 468000 = day 5, hour 10) is rejected,
by the weekend clause of the amended characterization. -/
theorem c1_witness : is_during_working_hours 468000 = false :=
  c1_working_hours_predicate.2.2.2.2 468000 (by decide)

/-- C3: `calculate_due_date` fails exactly on the two validation conditions:
an invalid submit instant yields the working-hours error, a valid instant
with negative turnaround yields the negative-turnaround error, an error
occurs iff one of the two conditions holds, and every other input returns
an instant. -/
theorem c3_error_characterization (t n : ℤ) :
    (is_during_working_hours t = false →
      calculate_due_date t n =
        .error "Submit date must be during working hours (9AM to 5PM, Monday to Friday)") ∧
    (is_during_working_hours t = true → n < 0 →
      calculate_due_date t n = .error "Turnaround time cannot be negative") ∧
    ((∃ e, calculate_due_date t n = .error e) ↔
      (is_during_working_hours t = false ∨ n < 0)) ∧
    (is_during_working_hours t = true → 0 ≤ n →
      ∃ r, calculate_due_date t n = .ok r) := by
  have hmain : is_during_working_hours t = true → 0 ≤ n →
      ∃ r, calculate_due_date t n = .ok r := by
    intro hv hn
    obtain ⟨r, hok, _⟩ := calc_result hv hn
    exact ⟨r, hok⟩
  refine ⟨fun hv => calc_invalid n hv, fun hv hn => calc_neg hv hn, ⟨?_, ?_⟩, hmain⟩
  · rintro ⟨e, he⟩
    by_contra hcon
    push_neg at hcon
    obtain ⟨h1, h2⟩ := hcon
    have hv : is_during_working_hours t = true := by
      cases hb : is_during_working_hours t
      · exact absurd hb h1
      · rfl
    obtain ⟨r, hok⟩ := hmain hv (by omega)
    rw [hok] at he
    simp at he
  · rintro (h | h)
    · exact ⟨_, calc_invalid n h⟩
    · cases hb : is_during_working_hours t
      · exact ⟨_, calc_invalid n hb⟩
      · exact ⟨_, calc_neg hb h⟩

/-- C3 witness: Monday 08:00 (instant 28800) with turnaround 8 produces the
working-hours error, and Monday 14:00 (instant 50400) with turnaround -5
produces the negative-turnaround error. -/
theorem c3_witness :
    calculate_due_date 28800 8 =
      .error "Submit date must be during working hours (9AM to 5PM, Monday to Friday)" ∧
    calculate_due_date 50400 (-5) = .error "Turnaround time cannot be negative" :=
  ⟨(c3_error_characterization 28800 8).1 (by decide),
   (c3_error_characterization 50400 (-5)).2.1 (by decide) (by decide)⟩

/-- C5: zero turnaround on a valid submit instant returns the submit instant
unchanged. -/
theorem c5_identity {t : ℤ} (hv : is_during_working_hours t = true) :
    calculate_due_date t 0 = .ok t :=
  calc_zero hv

/-- C5 witness: Monday 14:00 (instant 50400) with turnaround 0 is returned
unchanged. -/
theorem c5_witness : calculate_due_date 50400 0 = .ok 50400 :=
  c5_identity (by decide)

/-- C7: `_get_next_working_day` lands on a Monday-Friday day at exactly
09:00:00, on a calendar day strictly after the input's day, and no earlier
working day lies strictly between them (it is the earliest such day). -/
theorem c7_next_working_day (t : ℤ) :
    weekday (get_next_working_day t) < 5 ∧
    secOfDay (get_next_working_day t) = 32400 ∧
    dayIndex t < dayIndex (get_next_working_day t) ∧
    ∀ d : ℤ, dayIndex t < d → d % 7 < 5 → dayIndex (get_next_working_day t) ≤ d := by
  refine ⟨nwd_wd t, nwd_sec t, ?_, ?_⟩ <;>
  · have he := nwd_eval t
    rcases show (dayIndex t + 1) % 7 = 5 ∨ (dayIndex t + 1) % 7 = 6 ∨
        (dayIndex t + 1) % 7 < 5 by omega with h | h | h
    · rw [if_pos h] at he
      rw [he]
      simp only [dayIndex] at h ⊢
      first
        | omega
        | (intro d hd hdw; omega)
    · rw [if_neg (by omega), if_pos h] at he
      rw [he]
      simp only [dayIndex] at h ⊢
      first
        | omega
        | (intro d hd hdw; omega)
    · rw [if_neg (by omega), if_neg (by omega)] at he
      rw [he]
      simp only [dayIndex] at h ⊢
      first
        | omega
        | (intro d hd hdw; omega)

/-- C7 witness: from Friday 14:00 (instant 396000, day 4) the next working
day is day 7 (Monday); day 7 is working and later, so minimality gives
day(next) ≤ 7, and the time is exactly 09:00:00. -/
theorem c7_witness :
    dayIndex (get_next_working_day 396000) ≤ 7 ∧
    secOfDay (get_next_working_day 396000) = 32400 :=
  ⟨(c7_next_working_day 396000).2.2.2 7 (by decide) (by decide),
   (c7_next_working_day 396000).2.1⟩

/-- C9: the closing-boundary clause examines only hour and minute, never the
second: every Monday-Friday instant with hour 17 and minute 0 satisfies the
predicate whatever its second, and `calculate_due_date` accepts it for any
non-negative turnaround. -/
theorem c9_second_ignored_at_boundary {t : ℤ} (n : ℤ) (hw : weekday t < 5)
    (hh : hour t = 17) (hm : minute t = 0) (hn : 0 ≤ n) :
    is_during_working_hours t = true ∧ ∃ r, calculate_due_date t n = .ok r := by
  have hv : is_during_working_hours t = true := by
    rw [working_hours_iff]
    exact ⟨hw, Or.inr ⟨hh, hm⟩⟩
  obtain ⟨r, hok, _⟩ := calc_result hv hn
  exact ⟨hv, r, hok⟩

/-- C9 witness: Monday 17:00:59 (instant 61259) is accepted with turnaround 1. -/
theorem c9_witness :
    is_during_working_hours 61259 = true ∧
      ∃ r, calculate_due_date 61259 1 = .ok r :=
  c9_second_ignored_at_boundary 1 (by decide) (by decide) (by decide) (by decide)

/-- C2: for a valid submit instant and positive turnaround the result falls
on a Monday-Friday weekday with time-of-day between 09:00:00 and 17:00:00
inclusive, and a 17:00:00 result arises only as the exact end of the
same-day computation `submit + turnaround` hours. -/
theorem c2_result_within_working_hours {t n : ℤ}
    (hv : is_during_working_hours t = true) (hn : 0 < n) :
    ∃ r, calculate_due_date t n = .ok r ∧ weekday r < 5 ∧
      32400 ≤ secOfDay r ∧ secOfDay r ≤ 61200 ∧
      (secOfDay r = 61200 → r = addHours t (n : ℚ)) := by
  obtain ⟨r, hok, hcases⟩ := calc_result hv (le_of_lt hn)
  obtain ⟨hw, hs1, hs2⟩ := valid_bounds hv
  refine ⟨r, hok, ?_⟩
  rw [addHours_int]
  rcases hcases with ⟨h0, _⟩ | ⟨h1, hle, hr⟩ | ⟨h1, hgt, hr⟩
  · omega
  · subst hr
    refine ⟨?_, ?_, ?_, fun hend => rfl⟩ <;>
      · simp only [weekday, dayIndex, secOfDay] at hw hs1 hs2 hle ⊢
        omega
  · have hsec := nwd_iter_sec ((3600 * n - 61200 + secOfDay t).toNat / 28800) t
    have hwd5 := nwd_iter_wd ((3600 * n - 61200 + secOfDay t).toNat / 28800) t
    have hm1 : 0 ≤ (3600 * n - 61200 + secOfDay t) % 28800 :=
      Int.emod_nonneg _ (by norm_num)
    have hm2 : (3600 * n - 61200 + secOfDay t) % 28800 < 28800 :=
      Int.emod_lt_of_pos _ (by norm_num)
    subst hr
    refine ⟨?_, ?_, ?_, ?_⟩ <;>
      · try intro hend
        simp only [weekday, dayIndex, secOfDay] at *
        omega

/-- C2 witness: Monday 09:00 (instant 32400) with turnaround 1. -/
theorem c2_witness :
    ∃ r, calculate_due_date 32400 1 = .ok r ∧ weekday r < 5 ∧
      32400 ≤ secOfDay r ∧ secOfDay r ≤ 61200 ∧
      (secOfDay r = 61200 → r = addHours 32400 ((1 : ℤ) : ℚ)) :=
  c2_result_within_working_hours (by decide) (by decide)

/-- C4: for a fixed valid submit instant the due date is monotone in the
turnaround: 0 ≤ a < b implies result(a) ≤ result(b). -/
theorem c4_monotone {t a b : ℤ} (hv : is_during_working_hours t = true)
    (ha : 0 ≤ a) (hab : a < b) :
    ∃ ra rb, calculate_due_date t a = .ok ra ∧ calculate_due_date t b = .ok rb ∧
      ra ≤ rb := by
  obtain ⟨ra, hoka, hca⟩ := calc_result (n := a) hv ha
  obtain ⟨rb, hokb, hcb⟩ := calc_result (n := b) hv (by omega)
  obtain ⟨hw, hs1, hs2⟩ := valid_bounds hv
  refine ⟨ra, rb, hoka, hokb, ?_⟩
  have hds := dayStart_add_sec t
  rcases hcb with ⟨hb0, hrb⟩ | ⟨hb1, hble, hrb⟩ | ⟨hb1, hbgt, hrb⟩
  · omega
  · rcases hca with ⟨ha0, hra⟩ | ⟨ha1, hale, hra⟩ | ⟨ha1, hagt, hra⟩
    · rw [hra, hrb]
      omega
    · rw [hra, hrb]
      omega
    · omega
  · rcases hca with ⟨ha0, hra⟩ | ⟨ha1, hale, hra⟩ | ⟨ha1, hagt, hra⟩
    · rw [hra, hrb]
      have h1 := nwd_iter_gt ((3600 * b - 61200 + secOfDay t).toNat / 28800) t
      have h2 : 0 ≤ (3600 * b - 61200 + secOfDay t) % 28800 :=
        Int.emod_nonneg _ (by norm_num)
      omega
    · rw [hra, hrb]
      have h1 : get_next_working_day^[1] t ≤
          get_next_working_day^[(3600 * b - 61200 + secOfDay t).toNat / 28800 + 1] t :=
        nwd_iter_mono t (by omega)
      have h2 : get_next_working_day^[1] t = get_next_working_day t := rfl
      rw [h2] at h1
      have h3 := nwd_lb t
      have h4 : 0 ≤ (3600 * b - 61200 + secOfDay t) % 28800 :=
        Int.emod_nonneg _ (by norm_num)
      omega
    · rw [hra, hrb]
      exact branch2_mono t (by omega) (by omega)

/-- C4 witness: Monday 09:00 (instant 32400) with turnarounds 0 < 9. -/
theorem c4_witness :
    ∃ ra rb, calculate_due_date 32400 0 = .ok ra ∧
      calculate_due_date 32400 9 = .ok rb ∧ ra ≤ rb :=
  c4_monotone (by decide) (by decide) (by decide)

/-- C10: for a valid submit instant and whole-number non-negative turnaround
the result keeps the submit instant's minute and second components. -/
theorem c10_minute_second_preserved {t n : ℤ}
    (hv : is_during_working_hours t = true) (hn : 0 ≤ n) :
    ∃ r, calculate_due_date t n = .ok r ∧
      minute r = minute t ∧ second r = second t := by
  obtain ⟨r, hok, hcases⟩ := calc_result hv hn
  obtain ⟨hw, hs1, hs2⟩ := valid_bounds hv
  refine ⟨r, hok, ?_⟩
  rcases hcases with ⟨h0, hr⟩ | ⟨h1, hle, hr⟩ | ⟨h1, hgt, hr⟩
  · subst hr
    exact ⟨rfl, rfl⟩
  · subst hr
    constructor <;>
      · simp only [minute, second, secOfDay] at hs1 hs2 hle ⊢
        omega
  · have hsec := nwd_iter_sec ((3600 * n - 61200 + secOfDay t).toNat / 28800) t
    have hm1 : 0 ≤ (3600 * n - 61200 + secOfDay t) % 28800 :=
      Int.emod_nonneg _ (by norm_num)
    have hm2 : (3600 * n - 61200 + secOfDay t) % 28800 < 28800 :=
      Int.emod_lt_of_pos _ (by norm_num)
    subst hr
    constructor <;>
      · simp only [minute, second, secOfDay] at hs1 hs2 hsec hm1 hm2 ⊢
        omega

/-- C10 witness: Tuesday 14:12:00 (instant 137520 = day 1, 14:12) with
turnaround 16 keeps minute 12 and second 0. -/
theorem c10_witness :
    ∃ r, calculate_due_date 137520 16 = .ok r ∧
      minute r = minute 137520 ∧ second r = second 137520 :=
  c10_minute_second_preserved (by decide) (by decide)

/-- C6: the two weekend-spanning reference scenarios.  Day 0 of the timeline
is Monday 2025-03-10, so Friday 2025-03-14 14:00 is instant 396000 and the
expected Monday 2025-03-17 15:00 is 658800; Monday 2025-03-10 10:00 is
instant 36000 and the expected Monday 2025-03-24 10:00 is 1245600. -/
theorem c6_reference_scenarios :
    calculate_due_date 396000 9 = .ok 658800 ∧
    calculate_due_date 36000 80 = .ok 1245600 := by
  constructor
  · have h1 := calc_branch2 (t := 396000) (n := 9) (by decide) (by decide) (by decide)
    rw [show (3600 * 9 - 61200 + secOfDay 396000) = 21600 from by decide] at h1
    rw [show ((21600 : ℤ).toNat / 28800 + 1) = 1 from by decide] at h1
    have f1 : get_next_working_day^[1] 396000 = 637200 := by
      rw [show (1 : ℕ) = 0 + 1 from rfl, Function.iterate_succ_apply]
      rw [show get_next_working_day 396000 = 637200 from by rw [nwd_eval]; decide]
      exact Function.iterate_zero_apply _ _
    rw [f1, show ((21600 : ℤ) % 28800) = 21600 from by decide] at h1
    rw [h1]
    norm_num
  · have h2 := calc_branch2 (t := 36000) (n := 80) (by decide) (by decide) (by decide)
    rw [show (3600 * 80 - 61200 + secOfDay 36000) = 262800 from by decide] at h2
    rw [show ((262800 : ℤ).toNat / 28800 + 1) = 10 from by decide] at h2
    have g1 : get_next_working_day 36000 = 118800 := by rw [nwd_eval]; decide
    have g2 : get_next_working_day 118800 = 205200 := by rw [nwd_eval]; decide
    have g3 : get_next_working_day 205200 = 291600 := by rw [nwd_eval]; decide
    have g4 : get_next_working_day 291600 = 378000 := by rw [nwd_eval]; decide
    have g5 : get_next_working_day 378000 = 637200 := by rw [nwd_eval]; decide
    have g6 : get_next_working_day 637200 = 723600 := by rw [nwd_eval]; decide
    have g7 : get_next_working_day 723600 = 810000 := by rw [nwd_eval]; decide
    have g8 : get_next_working_day 810000 = 896400 := by rw [nwd_eval]; decide
    have g9 : get_next_working_day 896400 = 982800 := by rw [nwd_eval]; decide
    have g10 : get_next_working_day 982800 = 1242000 := by rw [nwd_eval]; decide
    have i10 : get_next_working_day^[10] 36000 = 1242000 := by
      rw [show (10 : ℕ) = 9 + 1 from rfl, Function.iterate_succ_apply, g1,
        show (9 : ℕ) = 8 + 1 from rfl, Function.iterate_succ_apply, g2,
        show (8 : ℕ) = 7 + 1 from rfl, Function.iterate_succ_apply, g3,
        show (7 : ℕ) = 6 + 1 from rfl, Function.iterate_succ_apply, g4,
        show (6 : ℕ) = 5 + 1 from rfl, Function.iterate_succ_apply, g5,
        show (5 : ℕ) = 4 + 1 from rfl, Function.iterate_succ_apply, g6,
        show (4 : ℕ) = 3 + 1 from rfl, Function.iterate_succ_apply, g7,
        show (3 : ℕ) = 2 + 1 from rfl, Function.iterate_succ_apply, g8,
        show (2 : ℕ) = 1 + 1 from rfl, Function.iterate_succ_apply, g9,
        show (1 : ℕ) = 0 + 1 from rfl, Function.iterate_succ_apply, g10]
      exact Function.iterate_zero_apply _ _
    rw [i10, show ((262800 : ℤ) % 28800) = 3600 from by decide] at h2
    rw [h2]
    norm_num

/-- C8: the termination structure of the algorithm.  Each iteration of the
full-day loop strictly decreases the remaining budget by exactly
WORK_HOURS_PER_DAY = 8 hours and the loop stops as soon as the budget drops
below 8; the weekend-skip loop adds at most two extra days; and on every
valid input the whole computation terminates with a result. -/
theorem c8_termination_structure :
    (∀ (r : ℚ) (c : ℤ),
      ((8 : ℚ) ≤ r → fullDaysLoop r c = fullDaysLoop (r - 8) (get_next_working_day c)) ∧
      (r < 8 → fullDaysLoop r c = (r, c))) ∧
    (∀ u : ℤ, skipToWorkday u ≤ u + 2 * 86400) ∧
    (∀ t n : ℤ, is_during_working_hours t = true → 0 ≤ n →
      ∃ r, calculate_due_date t n = .ok r) := by
  refine ⟨fun r c => ⟨fullDaysLoop_step r c, fullDaysLoop_stop r c⟩, ?_, ?_⟩
  · intro u
    have hwb : 0 ≤ weekday u ∧ weekday u < 7 := by
      simp only [weekday, dayIndex]
      omega
    have hws : ∀ v : ℤ, weekday (addDays v 1) = (weekday v + 1) % 7 := by
      intro v
      simp only [weekday, dayIndex, addDays]
      omega
    rcases show weekday u < 5 ∨ weekday u = 5 ∨ weekday u = 6 by omega with h | h | h
    · rw [skipToWorkday_pos h]
      omega
    · have h1 : ¬ weekday u < 5 := by omega
      have h2 : weekday (addDays u 1) = 6 := by rw [hws, h]; decide
      have h3 : ¬ weekday (addDays u 1) < 5 := by omega
      have h4 : weekday (addDays (addDays u 1) 1) = 0 := by rw [hws, h2]; decide
      rw [skipToWorkday_neg h1, skipToWorkday_neg h3, skipToWorkday_pos (by omega)]
      simp only [addDays]
      omega
    · have h1 : ¬ weekday u < 5 := by omega
      have h2 : weekday (addDays u 1) = 0 := by rw [hws, h]; decide
      rw [skipToWorkday_neg h1, skipToWorkday_pos (by omega)]
      simp only [addDays]
      omega
  · intro t n hv hn
    obtain ⟨r, hok, _⟩ := calc_result hv hn
    exact ⟨r, hok⟩

/-- C8 witness: one loop step at budget 9, the weekend-skip bound from
Saturday midnight (instant 432000), and termination at Monday 09:00 with
turnaround 8. -/
theorem c8_witness :
    fullDaysLoop 9 0 = fullDaysLoop (9 - 8) (get_next_working_day 0) ∧
    skipToWorkday 432000 ≤ 432000 + 2 * 86400 ∧
    ∃ r, calculate_due_date 32400 8 = .ok r :=
  ⟨(c8_termination_structure.1 9 0).1 (by norm_num),
   c8_termination_structure.2.1 432000,
   c8_termination_structure.2.2 32400 8 (by decide) (by decide)⟩

end DueDate
